import Mathlib

/-!
Shallow embedding of the HFT-System repository's core components:
the FIX tag=value codec (`FIXObject`, `Parser`), the limit order book
(`OrderBook`), the mean-reversion signal engine (`Strategy`) and the
session dispatcher (`Handler`).  Byte strings are modelled as `List Char`,
C++ `int` as `Int` (with explicit 32-bit range bounds where `std::stoi`
range-checks), and `double` as `ℚ` where the source only orders, adds and
compares values (the source performs no rounding-sensitive float tricks on
the paths modelled here).
-/

namespace HFT

/-- The SOH delimiter byte 0x01 used by the FIX wire format (`"\x01"` in
`FIXObject::to_string` and `const char SOH = '\x01'` in `Parser::parse`). -/
def SOH : Char := Char.ofNat 1

/-- Decimal digit character for a value below 10, as produced by C++
`std::to_string(int)`. -/
def digitChar (n : Nat) : Char := Char.ofNat (48 + n)

/-- Fuel-indexed decimal rendering of a natural number, most significant
digit first; `fuel > n` suffices for full rendering.  Models the digit
loop inside `std::to_string` for the non-negative case. -/
def natToCharsAux : Nat → Nat → List Char
  | 0, _ => []
  | fuel + 1, n =>
    if n < 10 then [digitChar n]
    else natToCharsAux fuel (n / 10) ++ [digitChar (n % 10)]

/-- C++ `std::to_string` on a non-negative value: its decimal digits. -/
def natToChars (n : Nat) : List Char := natToCharsAux (n + 1) n

/-- C++ `std::to_string(int)`: optional leading minus sign then decimal
digits. -/
def intToChars (i : Int) : List Char :=
  if i < 0 then '-' :: natToChars i.natAbs else natToChars i.toNat

/-- Greedily read leading decimal digits, accumulating their value in base
ten on top of `acc`; returns the accumulated value and how many digit
characters were consumed.  Models the digit scan inside `std::stoi`. -/
def readDigits : List Char → Nat → Nat × Nat
  | [], acc => (acc, 0)
  | c :: cs, acc =>
    if c.isDigit then
      let r := readDigits cs (acc * 10 + (c.toNat - 48))
      (r.1, r.2 + 1)
    else (acc, 0)

/-- The whitespace characters skipped by `std::stoi` (via `std::isspace`
in the default locale). -/
def isSpaceWS (c : Char) : Bool :=
  c = ' ' || c = '\t' || c = '\n' || c = Char.ofNat 11 || c = Char.ofNat 12 || c = '\r'

/-- `std::stoi` after whitespace skipping: optional sign, then at least one
decimal digit (else `std::invalid_argument`, modelled as `none`); the value
must fit a 32-bit signed `int` (else `std::out_of_range`, also `none`).
Characters after the digits are ignored, exactly as `std::stoi` ignores
them. -/
def stoiCore : List Char → Option Int
  | [] => none
  | c :: rest =>
    if c = '-' then
      let r := readDigits rest 0
      if r.2 = 0 ∨ (r.1 : Int) > 2147483648 then none else some (-(r.1 : Int))
    else if c = '+' then
      let r := readDigits rest 0
      if r.2 = 0 ∨ (r.1 : Int) > 2147483647 then none else some (r.1 : Int)
    else
      let r := readDigits (c :: rest) 0
      if r.2 = 0 ∨ (r.1 : Int) > 2147483647 then none else some (r.1 : Int)

/-- Model of `std::stoi(s)` (base 10), returning `none` where the C++ call
throws (`Parser::parse` catches both exception types and skips the field). -/
def stoi (s : List Char) : Option Int := stoiCore (s.dropWhile isSpaceWS)

/-- The field container of `FIXObject` (`std::unordered_map<int, std::string>
fields`), modelled as an association list with unique tags; `set_field`
is last-write-wins, as `fields[tag] = value` is.  `std::unordered_map`
iteration order is unspecified by C++; the model iterates in list order
(first-insertion order), one concrete possibility. -/
abbrev FIXFields := List (Int × List Char)

namespace FIXObject

/-- `FIXObject::set_field`: `fields[tag] = value` — replace the value under
`tag` if present, otherwise insert the pair. -/
def set_field (m : FIXFields) (tag : Int) (value : List Char) : FIXFields :=
  match m with
  | [] => [(tag, value)]
  | (t, v) :: rest =>
    if t = tag then (t, value) :: rest else (t, v) :: set_field rest tag value

/-- `FIXObject::get_field`: the value under `tag`, or the empty string when
the tag is absent. -/
def get_field (m : FIXFields) (tag : Int) : List Char :=
  match m with
  | [] => []
  | (t, v) :: rest => if t = tag then v else get_field rest tag

/-- `FIXObject::to_string`: for each stored field append
`std::to_string(tag) + "=" + value + "\x01"`. -/
def to_string (m : FIXFields) : List Char :=
  match m with
  | [] => []
  | (t, v) :: rest => intToChars t ++ '=' :: (v ++ SOH :: to_string rest)

end FIXObject

/-- Split a byte string at every SOH delimiter.  `std::getline(stream, seg,
SOH)` yields exactly the non-final pieces plus a final piece when the data
does not end in SOH; `splitD` additionally yields a final empty piece when
it does, which the parse loop's empty-segment `continue` then discards, so
the two agree on every parse. -/
def splitD : List Char → List (List Char)
  | [] => [[]]
  | c :: cs =>
    if c = SOH then [] :: splitD cs
    else
      match splitD cs with
      | [] => [[c]]
      | s :: rest => (c :: s) :: rest

/-- One iteration of the `Parser::parse` loop body on a single
delimiter-separated segment: skip it if empty, skip it if it has no `'='`,
split at the first `'='`, and skip it if `std::stoi` throws on the tag
substring; otherwise store the field. -/
def parseField (m : FIXFields) (seg : List Char) : FIXFields :=
  if seg = [] then m
  else if '=' ∉ seg then m
  else
    let tag_s := seg.takeWhile (fun c => c ≠ '=')
    let value := (seg.dropWhile (fun c => c ≠ '=')).tail
    match stoi tag_s with
    | some t => FIXObject.set_field m t value
    | none => m

namespace Parser

/-- `Parser::parse`: empty input returns an empty `FIXObject`; otherwise
run the loop body over every SOH-separated segment, left to right. -/
def parse (data : List Char) : FIXFields :=
  if data = [] then [] else (splitD data).foldl parseField []

end Parser

/-- Apply a sequence of `set_field` calls in order, as straight-line C++
`obj.set_field(t, v); ...` sequences do. -/
def setFields (m : FIXFields) (l : List (Int × List Char)) : FIXFields :=
  l.foldl (fun acc p => FIXObject.set_field acc p.1 p.2) m

/-- `enum class Side { Buy, Sell }`. -/
inductive Side where
  | Buy
  | Sell
deriving DecidableEq, Repr

/-- `struct Order { int order_id; int quantity; double price; Side side; }`.
The `double` price is used by the book only as an ordered map key, so it is
modelled as `ℚ` (exact comparisons, dense order). -/
structure Order where
  order_id : Int
  quantity : Int
  price : ℚ
  side : Side
deriving DecidableEq, Repr

/-- `std::map<double, int, std::greater<double>>` (the bids side, keys in
descending order): `m[p] += q`, default-inserting 0 for an absent key. -/
def addLevelDesc : List (ℚ × Int) → ℚ → Int → List (ℚ × Int)
  | [], p, q => [(p, q)]
  | (p0, q0) :: rest, p, q =>
    if p = p0 then (p0, q0 + q) :: rest
    else if p > p0 then (p, q) :: (p0, q0) :: rest
    else (p0, q0) :: addLevelDesc rest p q

/-- `std::map<double, int>` (the asks side, keys in ascending order):
`m[p] += q`, default-inserting 0 for an absent key. -/
def addLevelAsc : List (ℚ × Int) → ℚ → Int → List (ℚ × Int)
  | [], p, q => [(p, q)]
  | (p0, q0) :: rest, p, q =>
    if p = p0 then (p0, q0 + q) :: rest
    else if p < p0 then (p, q) :: (p0, q0) :: rest
    else (p0, q0) :: addLevelAsc rest p q

/-- `std::unordered_map<int, Order>` assignment `order_index[id] = order`:
replace under an existing key, else insert. -/
def idxInsert : List (Int × Order) → Int → Order → List (Int × Order)
  | [], k, o => [(k, o)]
  | (k0, o0) :: rest, k, o =>
    if k0 = k then (k0, o) :: rest else (k0, o0) :: idxInsert rest k o

/-- `order_index.find(id)`: the stored order, if any. -/
def idxFind : List (Int × Order) → Int → Option Order
  | [], _ => none
  | (k0, o0) :: rest, k => if k0 = k then some o0 else idxFind rest k

/-- The `OrderBook` class state: bids (price-descending), asks
(price-ascending), the id→Order index, and the ticker symbol. -/
structure OrderBook where
  bids : List (ℚ × Int)
  asks : List (ℚ × Int)
  order_index : List (Int × Order)
  ticker : List Char
deriving DecidableEq, Repr

namespace OrderBook

/-- `OrderBook::OrderBook(symbol)`: empty sides and index. -/
def mkBook (symbol : List Char) : OrderBook := ⟨[], [], [], symbol⟩

/-- `OrderBook::add_order`: store the order in the index under its id, then
add its quantity to the level at its price on its side.  Note the source
never reverses a previous order stored under the same id. -/
def add_order (b : OrderBook) (o : Order) : OrderBook :=
  let b1 : OrderBook := { b with order_index := idxInsert b.order_index o.order_id o }
  let b2 : OrderBook :=
    if o.side = Side.Buy then { b1 with bids := addLevelDesc b1.bids o.price o.quantity } else b1
  if o.side = Side.Sell then { b2 with asks := addLevelAsc b2.asks o.price o.quantity } else b2

/-- `OrderBook::cancel_order`: no-op when the id is absent from the index;
otherwise subtract the stored order's quantity from its side's level.  Note
the source never erases the id from `order_index`. -/
def cancel_order (b : OrderBook) (order_id : Int) : OrderBook :=
  match idxFind b.order_index order_id with
  | none => b
  | some ord =>
    let b2 : OrderBook :=
      if ord.side = Side.Buy then { b with bids := addLevelDesc b.bids ord.price (-ord.quantity) } else b
    if ord.side = Side.Sell then { b2 with asks := addLevelAsc b2.asks ord.price (-ord.quantity) } else b2

/-- `OrderBook::get_best_bid`: 0.0 on an empty bid map, else the first
(highest, by the descending comparator) price. -/
def get_best_bid (b : OrderBook) : ℚ :=
  match b.bids with
  | [] => 0
  | (p, _) :: _ => p

/-- `OrderBook::get_best_ask`: 0.0 on an empty ask map, else the first
(lowest) price. -/
def get_best_ask (b : OrderBook) : ℚ :=
  match b.asks with
  | [] => 0
  | (p, _) :: _ => p

end OrderBook

/-- The aggregated quantity a side records at price `p`, reading an absent
level as 0.  Observation function used to state the price-level-aggregate
claims. -/
def levelQty : List (ℚ × Int) → ℚ → Int
  | [], _ => 0
  | (p0, q0) :: rest, p => if p0 = p then q0 else levelQty rest p

/-- The `Strategy` class state: running mean, evaluations seen, warm-up
window, smoothing factor. -/
structure Strategy where
  mean : ℚ
  count : Int
  window : Int
  alpha : ℚ
deriving DecidableEq, Repr

/-- `Strategy::Strategy()`: mean 0.0, count 0, window 20, alpha 0.1.  The
decimal double literal 0.1 is modelled as the exact rational 1/10. -/
def Strategy.strategyNew : Strategy := ⟨0, 0, 20, 1/10⟩

/-- Stand-in for C++ `std::to_string(double)` on the reference price carried
in tag 44.  Exact decimal formatting of a binary double is a floating-point
artefact a rational model cannot reproduce; the model renders `num/den`.
No claim in this development depends on the rendering of tag 44. -/
def ratToChars (q : ℚ) : List Char := intToChars q.num ++ '/' :: natToChars q.den

/-- `Strategy::generate_signal`.  During warm-up (`count < window`) it moves
the mean toward the midprice and returns an empty `FIXObject`; afterwards it
emits a buy (sell) order when the midprice is 0.5% below (above) the mean,
else an empty `FIXObject`, leaving mean and count untouched.  The book
accessors `get_midprice`, `get_ask`, `get_bid` called here belong to the
repository's alternate OrderBook shape whose definition is not among the
sources (spec §9, "divergent prior designs"), so the snapshot values they
would return enter as the inputs `mid`, `ask`, `bid`.  The double literals
0.995 and 1.005 are modelled as exact rationals. -/
def Strategy.generate_signal (s : Strategy) (mid ask bid : ℚ) : Strategy × FIXFields :=
  if s.count < s.window then
    ({ s with mean := s.mean + s.alpha * (mid - s.mean), count := s.count + 1 }, [])
  else if mid < s.mean * (995 / 1000) then
    (s, setFields [] [(35, ['D']), (55, ['T', 'E', 'S', 'T']), (54, ['1']),
                      (38, ['1', '0']), (44, ratToChars ask)])
  else if mid > s.mean * (1005 / 1000) then
    (s, setFields [] [(35, ['D']), (55, ['T', 'E', 'S', 'T']), (54, ['2']),
                      (38, ['1', '0']), (44, ratToChars bid)])
  else (s, [])

namespace Handler

/-- `Handler::handle_message`: classify the inbound message on tag 35 and
build the session reply — heartbeat for "0"/"1" (echoing tag 112 for "1"),
logon ack for "A", and for "D" an execution report with `35=8`, `150=0`,
`39=0` echoing tags 11, 55, 54, 38; anything else returns an empty
`FIXObject`. -/
def handle_message (m : FIXFields) : FIXFields :=
  let msg_type := FIXObject.get_field m 35
  if msg_type = ['0'] then
    setFields [] [(35, ['0'])]
  else if msg_type = ['1'] then
    setFields [] [(35, ['0']), (112, FIXObject.get_field m 112)]
  else if msg_type = ['A'] then
    setFields [] [(35, ['A']), (98, ['0']), (108, ['3', '0'])]
  else if msg_type = ['D'] then
    setFields [] [(35, ['8']), (150, ['0']), (39, ['0']),
                  (11, FIXObject.get_field m 11), (55, FIXObject.get_field m 55),
                  (54, FIXObject.get_field m 54), (38, FIXObject.get_field m 38)]
  else []

end Handler

/-- The key invariant `std::map<double, int, std::greater<double>>`
maintains: strictly descending keys. -/
def DescSorted (l : List (ℚ × Int)) : Prop := l.Pairwise (fun x y => y.1 < x.1)

/-- The key invariant `std::map<double, int>` maintains: strictly ascending
keys. -/
def AscSorted (l : List (ℚ × Int)) : Prop := l.Pairwise (fun x y => x.1 < y.1)

instance (l : List (ℚ × Int)) : Decidable (DescSorted l) :=
  inferInstanceAs (Decidable (l.Pairwise _))

instance (l : List (ℚ × Int)) : Decidable (AscSorted l) :=
  inferInstanceAs (Decidable (l.Pairwise _))

/-- The tag/value pair one segment of the wire data contributes, if any:
`none` exactly when the `Parser::parse` loop body `continue`s (empty
segment, missing `'='`, or `std::stoi` throwing on the tag substring). -/
def segPair (seg : List Char) : Option (Int × List Char) :=
  if seg = [] then none
  else if '=' ∉ seg then none
  else
    match stoi (seg.takeWhile (fun c => c ≠ '=')) with
    | some t => some (t, (seg.dropWhile (fun c => c ≠ '=')).tail)
    | none => none

/-- The tag/value pairs of the fields of `data` that the parse loop accepts,
in wire order. -/
def wfPairs (data : List Char) : FIXFields := (splitD data).filterMap segPair

/-- Evaluate `Strategy::generate_signal` once per snapshot
`(mid, ask, bid)`, threading the engine state, and collect the returned
messages. -/
def runSignals (s : Strategy) : List (ℚ × ℚ × ℚ) → List FIXFields
  | [] => []
  | (mid, ask, bid) :: rest =>
    (Strategy.generate_signal s mid ask bid).2 ::
      runSignals (Strategy.generate_signal s mid ask bid).1 rest

/-- A concrete inbound NewOrderSingle message (tag 35 = "D") for evaluating
the dispatcher. -/
def msgD : FIXFields :=
  [(11, ['7']), (35, ['D']), (38, ['1', '0', '0']), (54, ['1']),
   (55, ['I', 'B', 'M'])]

/-- A book holding one resting buy order (id 1, quantity 5, price 100). -/
def bookOne : OrderBook :=
  OrderBook.add_order (OrderBook.mkBook ['T']) ⟨1, 5, 100, Side.Buy⟩

/-- The spec's best-quote example book: bids at 99 and 98, asks at 101 and
102, built through `add_order`. -/
def bookEx : OrderBook :=
  OrderBook.add_order
    (OrderBook.add_order
      (OrderBook.add_order
        (OrderBook.add_order (OrderBook.mkBook ['T']) ⟨1, 5, 99, Side.Buy⟩)
        ⟨2, 5, 98, Side.Buy⟩)
      ⟨3, 5, 101, Side.Sell⟩)
    ⟨4, 5, 102, Side.Sell⟩

/-! ### Helper lemmas: decimal rendering and `stoi` -/

theorem digitChar_facts : ∀ d < 10, (digitChar d).isDigit = true ∧
    (digitChar d).toNat = 48 + d ∧ isSpaceWS (digitChar d) = false ∧
    digitChar d ≠ '-' ∧ digitChar d ≠ '+' ∧ digitChar d ≠ '=' ∧
    digitChar d ≠ SOH := by decide

theorem natToCharsAux_shape : ∀ f n, n < f →
    ∀ c ∈ natToCharsAux f n, ∃ d, d < 10 ∧ c = digitChar d := by
  intro f
  induction f with
  | zero => intro n h; omega
  | succ fuel ih =>
    intro n h c hc
    by_cases h10 : n < 10
    · simp only [natToCharsAux, if_pos h10, List.mem_singleton] at hc
      exact ⟨n, h10, hc⟩
    · simp only [natToCharsAux, if_neg h10, List.mem_append,
        List.mem_singleton] at hc
      rcases hc with hc | hc
      · have hdiv : n / 10 < fuel := by
          have : n / 10 < n := Nat.div_lt_self (by omega) (by norm_num)
          omega
        exact ih (n / 10) hdiv c hc
      · exact ⟨n % 10, Nat.mod_lt _ (by norm_num), hc⟩

theorem natToCharsAux_ne_nil : ∀ f n, n < f → natToCharsAux f n ≠ [] := by
  intro f
  induction f with
  | zero => intro n h; omega
  | succ fuel _ =>
    intro n h
    by_cases h10 : n < 10
    · simp [natToCharsAux, h10]
    · simp [natToCharsAux, h10]

theorem readDigits_nil (acc : Nat) : readDigits [] acc = (acc, 0) := rfl

theorem readDigits_cons (c : Char) (cs : List Char) (acc : Nat) :
    readDigits (c :: cs) acc =
      if c.isDigit then
        ((readDigits cs (acc * 10 + (c.toNat - 48))).1,
         (readDigits cs (acc * 10 + (c.toNat - 48))).2 + 1)
      else (acc, 0) := rfl

theorem readDigits_append (A B : List Char) (acc v : Nat)
    (h : readDigits A acc = (v, A.length)) :
    readDigits (A ++ B) acc = ((readDigits B v).1, A.length + (readDigits B v).2) := by
  induction A generalizing acc with
  | nil =>
    rw [readDigits_nil] at h
    simp only [Prod.mk.injEq, List.length_nil] at h
    simp [h.1]
  | cons c cs ih =>
    rw [readDigits_cons] at h
    rw [List.cons_append, readDigits_cons]
    by_cases hd : c.isDigit
    · rw [if_pos hd] at h ⊢
      simp only [Prod.mk.injEq, List.length_cons] at h
      have h1 : readDigits cs (acc * 10 + (c.toNat - 48)) = (v, cs.length) :=
        Prod.ext h.1 (by omega)
      rw [ih _ h1]
      dsimp only
      simp only [List.length_cons]
      rw [Prod.mk.injEq]
      exact ⟨rfl, by omega⟩
    · rw [if_neg hd] at h
      simp only [Prod.mk.injEq, List.length_cons] at h
      omega

theorem readDigits_natToCharsAux : ∀ f n acc, n < f →
    readDigits (natToCharsAux f n) acc
      = (acc * 10 ^ (natToCharsAux f n).length + n, (natToCharsAux f n).length) := by
  intro f
  induction f with
  | zero => intro n acc h; omega
  | succ fuel ih =>
    intro n acc h
    by_cases h10 : n < 10
    · have hfacts := digitChar_facts n h10
      simp only [natToCharsAux, if_pos h10]
      rw [readDigits_cons, if_pos hfacts.1, hfacts.2.1, readDigits_nil]
      dsimp only
      simp only [List.length_singleton, pow_one]
      rw [Prod.mk.injEq]
      exact ⟨by omega, rfl⟩
    · have hdiv : n / 10 < fuel := by
        have hlt : n / 10 < n := Nat.div_lt_self (by omega) (by norm_num)
        omega
      have hmod := digitChar_facts (n % 10) (Nat.mod_lt _ (by norm_num))
      have IH := ih (n / 10) acc hdiv
      simp only [natToCharsAux, if_neg h10]
      rw [readDigits_append _ _ _ _ IH]
      have hone : readDigits [digitChar (n % 10)]
          (acc * 10 ^ (natToCharsAux fuel (n / 10)).length + n / 10)
          = ((acc * 10 ^ (natToCharsAux fuel (n / 10)).length + n / 10) * 10
              + n % 10, 1) := by
        rw [readDigits_cons, if_pos hmod.1, hmod.2.1, readDigits_nil]
        dsimp only
        rw [Prod.mk.injEq]
        exact ⟨by omega, rfl⟩
      rw [hone]
      dsimp only
      simp only [List.length_append, List.length_singleton]
      rw [Prod.mk.injEq]
      have hdm := Nat.div_add_mod n 10
      refine ⟨?_, by omega⟩
      rw [pow_succ]
      ring_nf
      omega

theorem natToChars_shape (n : Nat) :
    ∀ c ∈ natToChars n, ∃ d, d < 10 ∧ c = digitChar d :=
  natToCharsAux_shape (n + 1) n (Nat.lt_succ_self n)

theorem natToChars_ne_nil (n : Nat) : natToChars n ≠ [] :=
  natToCharsAux_ne_nil (n + 1) n (Nat.lt_succ_self n)

theorem readDigits_natToChars (n : Nat) :
    readDigits (natToChars n) 0 = (n, (natToChars n).length) := by
  have h := readDigits_natToCharsAux (n + 1) n 0 (Nat.lt_succ_self n)
  simpa [natToChars] using h

theorem stoi_natToChars (n : Nat) (h : (n : Int) ≤ 2147483647) :
    stoi (natToChars n) = some (n : Int) := by
  rcases hshape : natToChars n with _ | ⟨c, cs⟩
  · exact absurd hshape (natToChars_ne_nil n)
  · obtain ⟨d, hd, hcd⟩ := natToChars_shape n c
      (by rw [hshape]; exact List.mem_cons_self _ _)
    have hfacts := digitChar_facts d hd
    have hrd : readDigits (c :: cs) 0 = (n, cs.length + 1) := by
      have h0 := readDigits_natToChars n
      rw [hshape] at h0
      simpa using h0
    have hcm : ¬(c = '-') := by rw [hcd]; exact hfacts.2.2.2.1
    have hcp : ¬(c = '+') := by rw [hcd]; exact hfacts.2.2.2.2.1
    have hsp : isSpaceWS c = false := by rw [hcd]; exact hfacts.2.2.1
    have hle : ¬((n : Int) > 2147483647) := not_lt.mpr h
    rw [stoi, List.dropWhile_cons, hsp]
    simp only [Bool.false_eq_true, if_false]
    simp only [stoiCore]
    rw [if_neg hcm, if_neg hcp, hrd]
    dsimp only
    rw [if_neg]
    push_neg
    exact ⟨by omega, h⟩

theorem stoi_intToChars (i : Int) (h1 : -2147483648 ≤ i)
    (h2 : i ≤ 2147483647) : stoi (intToChars i) = some i := by
  by_cases hneg : i < 0
  · rcases hshape : natToChars i.natAbs with _ | ⟨c, cs⟩
    · exact absurd hshape (natToChars_ne_nil _)
    · have hrd : readDigits (c :: cs) 0 = (i.natAbs, cs.length + 1) := by
        have h0 := readDigits_natToChars i.natAbs
        rw [hshape] at h0
        simpa using h0
      have hminus : isSpaceWS '-' = false := by decide
      have hle : ¬((i.natAbs : Int) > 2147483648) := by omega
      rw [intToChars, if_pos hneg, stoi, List.dropWhile_cons, hminus]
      simp only [Bool.false_eq_true, if_false]
      rw [hshape]
      simp only [stoiCore, if_true]
      rw [hrd]
      dsimp only
      rw [if_neg, Option.some_inj]
      · omega
      · push_neg
        constructor
        · omega
        · omega
  · rw [intToChars, if_neg hneg]
    have h0 := stoi_natToChars i.toNat (by omega)
    rw [h0, Option.some_inj]
    omega

/-! ### Helper lemmas: splitting, field extraction, and the encoder -/

theorem intToChars_shape (i : Int) :
    ∀ c ∈ intToChars i, c = '-' ∨ ∃ d, d < 10 ∧ c = digitChar d := by
  intro c hc
  by_cases hneg : i < 0
  · rw [intToChars, if_pos hneg] at hc
    rcases List.mem_cons.mp hc with h | h
    · exact Or.inl h
    · exact Or.inr (natToChars_shape _ c h)
  · rw [intToChars, if_neg hneg] at hc
    exact Or.inr (natToChars_shape _ c hc)

theorem minus_facts : ('-' : Char) ≠ '=' ∧ ('-' : Char) ≠ SOH := by decide

theorem intToChars_no_eq (i : Int) : ∀ c ∈ intToChars i, c ≠ '=' ∧ c ≠ SOH := by
  intro c hc
  rcases intToChars_shape i c hc with h | ⟨d, hd, h⟩
  · rw [h]; exact minus_facts
  · rw [h]
    exact ⟨(digitChar_facts d hd).2.2.2.2.2.1, (digitChar_facts d hd).2.2.2.2.2.2⟩

theorem takeWhile_seg (A v : List Char) (hA : ∀ c ∈ A, c ≠ '=') :
    (A ++ '=' :: v).takeWhile (fun c => c ≠ '=') = A := by
  induction A with
  | nil => simp
  | cons c cs ih =>
    have hc : c ≠ '=' := hA c (List.mem_cons_self _ _)
    rw [List.cons_append, List.takeWhile_cons, if_pos (decide_eq_true hc),
      ih fun x hx => hA x (List.mem_cons_of_mem _ hx)]

theorem dropWhile_seg (A v : List Char) (hA : ∀ c ∈ A, c ≠ '=') :
    (A ++ '=' :: v).dropWhile (fun c => c ≠ '=') = '=' :: v := by
  induction A with
  | nil => simp
  | cons c cs ih =>
    have hc : c ≠ '=' := hA c (List.mem_cons_self _ _)
    rw [List.cons_append, List.dropWhile_cons, if_pos (decide_eq_true hc)]
    exact ih fun x hx => hA x (List.mem_cons_of_mem _ hx)

theorem splitD_sep (s t : List Char) (hs : SOH ∉ s) :
    splitD (s ++ SOH :: t) = s :: splitD t := by
  induction s with
  | nil => simp [splitD]
  | cons c cs ih =>
    have hc : ¬(c = SOH) := fun h => hs (h ▸ List.mem_cons_self c cs)
    have hcs : SOH ∉ cs := fun h => hs (List.mem_cons_of_mem _ h)
    rw [List.cons_append, splitD]
    simp only [if_neg hc]
    rw [ih hcs]

theorem set_field_append (m : FIXFields) (t : Int) (v : List Char)
    (h : ∀ p ∈ m, p.1 ≠ t) :
    FIXObject.set_field m t v = m ++ [(t, v)] := by
  induction m with
  | nil => rfl
  | cons p rest ih =>
    rcases p with ⟨t0, v0⟩
    have ht0 : t0 ≠ t := h (t0, v0) (List.mem_cons_self _ _)
    simp only [FIXObject.set_field, if_neg ht0, List.cons_append,
      List.cons.injEq, true_and]
    exact ih fun p hp => h p (List.mem_cons_of_mem _ hp)

theorem to_string_cons (t : Int) (v : List Char) (rest : FIXFields) :
    FIXObject.to_string ((t, v) :: rest)
      = (intToChars t ++ '=' :: v) ++ SOH :: FIXObject.to_string rest := by
  simp [FIXObject.to_string, List.append_assoc]

theorem parse_fold_toString (m : FIXFields) :
    ∀ m₀ : FIXFields,
    (List.map Prod.fst m).Pairwise (fun a b => a ≠ b) →
    (∀ p ∈ m, ∀ q ∈ m₀, q.1 ≠ p.1) →
    (∀ p ∈ m, -2147483648 ≤ p.1 ∧ p.1 ≤ 2147483647) →
    (∀ p ∈ m, SOH ∉ p.2) →
    (splitD (FIXObject.to_string m)).foldl parseField m₀ = m₀ ++ m := by
  induction m with
  | nil =>
    intro m₀ _ _ _ _
    simp [FIXObject.to_string, splitD, parseField]
  | cons p rest ih =>
    intro m₀ hdist hfresh hrange hval
    rcases p with ⟨t, v⟩
    have hAne : ∀ c ∈ intToChars t, c ≠ '=' ∧ c ≠ SOH := intToChars_no_eq t
    have hsoh : SOH ∉ intToChars t ++ '=' :: v := by
      intro hmem
      rcases List.mem_append.mp hmem with hmem | hmem
      · exact (hAne SOH hmem).2 rfl
      · rcases List.mem_cons.mp hmem with hmem | hmem
        · exact (by decide : SOH ≠ '=') hmem
        · exact hval (t, v) (List.mem_cons_self _ _) hmem
    rw [to_string_cons, splitD_sep _ _ hsoh, List.foldl_cons]
    have hne : intToChars t ++ '=' :: v ≠ [] := by simp
    have hmem : '=' ∈ intToChars t ++ '=' :: v :=
      List.mem_append.mpr (Or.inr (List.mem_cons_self _ _))
    have hstep : parseField m₀ (intToChars t ++ '=' :: v)
        = FIXObject.set_field m₀ t v := by
      rw [parseField, if_neg hne, if_neg (not_not_intro hmem)]
      rw [takeWhile_seg _ _ fun c hc => (hAne c hc).1,
        dropWhile_seg _ _ fun c hc => (hAne c hc).1]
      have hr := hrange (t, v) (List.mem_cons_self _ _)
      dsimp only
      rw [stoi_intToChars t hr.1 hr.2]
      rfl
    rw [hstep]
    have hfr : ∀ q ∈ m₀, q.1 ≠ t := fun q hq =>
      hfresh (t, v) (List.mem_cons_self _ _) q hq
    rw [set_field_append m₀ t v hfr]
    rw [List.map_cons] at hdist
    have hpc := List.pairwise_cons.mp hdist
    rw [ih (m₀ ++ [(t, v)]) hpc.2
      (by
        intro p hp q hq
        rcases List.mem_append.mp hq with hq | hq
        · exact hfresh p (List.mem_cons_of_mem _ hp) q hq
        · rcases List.mem_singleton.mp hq with rfl
          exact hpc.1 p.1 (List.mem_map.mpr ⟨p, hp, rfl⟩))
      (fun p hp => hrange p (List.mem_cons_of_mem _ hp))
      (fun p hp => hval p (List.mem_cons_of_mem _ hp))]
    simp

/-- Claim C1: for every Message whose tags are distinct 32-bit ints and
whose values are non-empty strings containing neither the delimiter byte
0x01 nor `'='`, decoding the encoding (`Parser::parse` applied to
`FIXObject::to_string`) yields a Message with exactly the same tag→value
pairs; the model in fact recovers the identical association list, which
implies the claim's order-independent pair equality. -/
theorem C1_roundtrip (m : FIXFields)
    (hdist : (List.map Prod.fst m).Pairwise (fun a b => a ≠ b))
    (hrange : ∀ p ∈ m, -2147483648 ≤ p.1 ∧ p.1 ≤ 2147483647)
    (hval : ∀ p ∈ m, p.2 ≠ [] ∧ '=' ∉ p.2 ∧ SOH ∉ p.2) :
    Parser.parse (FIXObject.to_string m) = m := by
  cases m with
  | nil => rfl
  | cons p rest =>
    rcases p with ⟨t, v⟩
    have hne : FIXObject.to_string ((t, v) :: rest) ≠ [] := by
      rw [to_string_cons]; simp
    rw [Parser.parse, if_neg hne]
    have h := parse_fold_toString ((t, v) :: rest) [] hdist
      (by intro p _ q hq; exact absurd hq (List.not_mem_nil q))
      hrange (fun p hp => (hval p hp).2.2)
    simpa using h

/-- Witness for C1: a concrete two-field message round-trips unchanged. -/
theorem C1_roundtrip_witness :
    Parser.parse (FIXObject.to_string [((35 : Int), ['D']), (49, ['A'])])
      = [((35 : Int), ['D']), (49, ['A'])] :=
  C1_roundtrip _ (by decide) (by decide) (by decide)

/-! ### Claims C6, C10, C2, C4, C7 -/

theorem parseField_segPair (m : FIXFields) (seg : List Char) :
    parseField m seg =
      match segPair seg with
      | some p => FIXObject.set_field m p.1 p.2
      | none => m := by
  rw [parseField, segPair]
  by_cases h1 : seg = []
  · rw [if_pos h1, if_pos h1]
  · rw [if_neg h1, if_neg h1]
    by_cases h2 : '=' ∉ seg
    · rw [if_pos h2, if_pos h2]
    · rw [if_neg h2, if_neg h2]
      dsimp only
      cases stoi (seg.takeWhile fun c => c ≠ '=') with
      | none => rfl
      | some t => rfl

theorem foldl_parseField_filterMap (segs : List (List Char)) :
    ∀ m₀ : FIXFields,
    segs.foldl parseField m₀ = setFields m₀ (segs.filterMap segPair) := by
  induction segs with
  | nil => intro m₀; rfl
  | cons s ss ih =>
    intro m₀
    rw [List.foldl_cons, List.filterMap_cons, parseField_segPair]
    cases hs : segPair s with
    | none => exact ih m₀
    | some p => exact ih (FIXObject.set_field m₀ p.1 p.2)

/-- Claim C6 (amended): `Parser::parse` never aborts, and its result holds
exactly the tag/value pairs of the accepted fields — those that are
non-empty, contain `'='`, and whose tag substring `std::stoi` parses.  The
claim's "not purely numeric ⇒ skipped" is too strong: `std::stoi` accepts a
tag substring whose numeric prefix is followed by junk (see the
counterexample), and also accepts leading whitespace and a sign. -/
theorem C6_parse_exactly_accepted_fields (data : List Char) :
    Parser.parse data = setFields [] (wfPairs data) := by
  rw [Parser.parse, wfPairs]
  by_cases h : data = []
  · rw [if_pos h, h]
    rfl
  · rw [if_neg h]
    exact foldl_parseField_filterMap (splitD data) []

/-- Claim C6 counterexample: the field `12abc=v` has a tag substring that is
not purely numeric, so by the claim it must be skipped and the decode of
`"12abc=v\x01"` must be empty; the code instead stores the pair (12, "v"),
because `std::stoi("12abc")` returns 12. -/
theorem C6_counterexample :
    Parser.parse (['1', '2', 'a', 'b', 'c', '=', 'v'] ++ [SOH])
      = [((12 : Int), ['v'])] ∧
    (['1', '2', 'a', 'b', 'c'].all Char.isDigit) = false := by decide

/-- Claim C10: `FIXObject::get_field` on a tag not stored in the message
returns the empty string rather than failing. -/
theorem C10_get_field_missing (m : FIXFields) (t : Int)
    (h : ∀ p ∈ m, p.1 ≠ t) :
    FIXObject.get_field m t = [] := by
  induction m with
  | nil => rfl
  | cons p rest ih =>
    rcases p with ⟨t0, v0⟩
    have ht0 : t0 ≠ t := h (t0, v0) (List.mem_cons_self _ _)
    simp only [FIXObject.get_field, if_neg ht0]
    exact ih fun p hp => h p (List.mem_cons_of_mem _ hp)

/-- Witness for C10: tag 49 is absent from a one-field message and from the
freshly constructed empty message; both lookups yield `""`. -/
theorem C10_get_field_missing_witness :
    FIXObject.get_field [((35 : Int), ['D'])] 49 = [] ∧
    FIXObject.get_field [] 49 = [] :=
  ⟨C10_get_field_missing _ _ (by decide), C10_get_field_missing [] 49 (by decide)⟩

/-- Claim C2 (code-bug evaluation): `OrderBook::cancel_order` never erases
the id from `order_index` (spec §4.2 requires "removes it from the index"),
so the second cancel of id 1 finds the order again and subtracts its
quantity a second time: after add(id 1, Buy 5 @ 100) the first cancel
leaves the 100 price level at 0, the second drives it to −5 — the second
cancel is not a no-op on the aggregates, contrary to the claim. -/
theorem C2_second_cancel_changes_aggregates :
    levelQty (OrderBook.cancel_order (OrderBook.cancel_order bookOne 1) 1).bids 100
      = -5 ∧
    levelQty (OrderBook.cancel_order bookOne 1).bids 100 = 0 := by decide

/-- Claim C4 counterexample: a state at count = window = 20 (reached after
the 20 warm-up evaluations) with mean 0 and midprice 100: the claim demands
the mean become 0 + 0.1·(100 − 0) = 10 on this evaluation too, but
`Strategy::generate_signal` leaves it at 0 (here a sell signal fires; the
mean is not touched on any post-warm-up path). -/
theorem C4_counterexample :
    (Strategy.generate_signal ⟨0, 20, 20, 1 / 10⟩ 100 101 99).1.mean = 0 ∧
    ¬ ((Strategy.generate_signal ⟨0, 20, 20, 1 / 10⟩ 100 101 99).1.mean
        = 0 + (1 / 10 : ℚ) * (100 - 0)) := by
  constructor
  · norm_num [Strategy.generate_signal]
  · norm_num [Strategy.generate_signal]

/-- Claim C4 (amended): the EMA update `mean ← mean + α·(mid − mean)` and
the count increment happen exactly on the warm-up evaluations
(count < window); on every later evaluation both mean and count are left
unchanged, whether or not a signal fires. -/
theorem C4_mean_updates_only_in_warmup (s : Strategy) (mid ask bid : ℚ) :
    (Strategy.generate_signal s mid ask bid).1.mean
      = (if s.count < s.window then s.mean + s.alpha * (mid - s.mean)
         else s.mean) ∧
    (Strategy.generate_signal s mid ask bid).1.count
      = (if s.count < s.window then s.count + 1 else s.count) := by
  by_cases h : s.count < s.window
  · simp [Strategy.generate_signal, h]
  · by_cases h2 : mid < s.mean * (995 / 1000)
    · simp [Strategy.generate_signal, h, h2]
    · by_cases h3 : mid > s.mean * (1005 / 1000)
      · simp [Strategy.generate_signal, h, h2, h3]
      · simp [Strategy.generate_signal, h, h2, h3]

theorem runSignals_warmup (s : Strategy) :
    ∀ inputs : List (ℚ × ℚ × ℚ), s.count + (inputs.length : Int) ≤ s.window →
    runSignals s inputs = List.replicate inputs.length [] := by
  intro inputs
  induction inputs generalizing s with
  | nil => intro _; rfl
  | cons x rest ih =>
    intro h
    rcases x with ⟨mid, ask, bid⟩
    have hlt : s.count < s.window := by
      rw [List.length_cons] at h
      push_cast at h
      omega
    rw [runSignals, Strategy.generate_signal, if_pos hlt]
    dsimp only
    rw [List.length_cons, List.replicate_succ]
    rw [ih _ (by rw [List.length_cons] at h; push_cast at h ⊢; omega)]

/-- Claim C7: a freshly constructed Strategy has count 0 and window 20, so
each of the first 20 evaluations of `generate_signal` takes the warm-up
branch and returns the empty no-signal `FIXObject`, regardless of the
midprice values observed. -/
theorem C7_warmup_no_signal (inputs : List (ℚ × ℚ × ℚ))
    (h : inputs.length ≤ 20) :
    runSignals Strategy.strategyNew inputs
      = List.replicate inputs.length [] :=
  runSignals_warmup Strategy.strategyNew inputs
    (by show (0 : Int) + (inputs.length : Int) ≤ 20; omega)

/-- Witness for C7: two evaluations on a fresh engine both return the empty
message. -/
theorem C7_warmup_no_signal_witness :
    runSignals Strategy.strategyNew [(100, 101, 99), (50, 51, 49)]
      = List.replicate 2 [] :=
  C7_warmup_no_signal _ (by decide)

/-! ### Claims C3, C8, C9 -/

theorem idxFind_idxInsert (idx : List (Int × Order)) (k : Int) (o : Order) :
    idxFind (idxInsert idx k o) k = some o := by
  induction idx with
  | nil => simp [idxInsert, idxFind]
  | cons e rest ih =>
    rcases e with ⟨k0, o0⟩
    by_cases h : k0 = k
    · simp [idxInsert, idxFind, h]
    · simp [idxInsert, idxFind, h, ih]

theorem levelQty_of_forall_ne (l : List (ℚ × Int)) (p : ℚ)
    (h : ∀ e ∈ l, e.1 ≠ p) : levelQty l p = 0 := by
  induction l with
  | nil => rfl
  | cons e rest ih =>
    rcases e with ⟨p0, q0⟩
    have hp0 : p0 ≠ p := h (p0, q0) (List.mem_cons_self _ _)
    simp only [levelQty, if_neg hp0]
    exact ih fun e he => h e (List.mem_cons_of_mem _ he)

theorem levelQty_addLevelDesc (l : List (ℚ × Int)) (p : ℚ) (q : Int)
    (hl : DescSorted l) (pp : ℚ) :
    levelQty (addLevelDesc l p q) pp
      = levelQty l pp + (if pp = p then q else 0) := by
  induction l with
  | nil =>
    by_cases h : pp = p
    · subst h
      simp [addLevelDesc, levelQty]
    · have h2 : ¬(p = pp) := fun hh => h hh.symm
      simp [addLevelDesc, levelQty, h, h2]
  | cons e rest ih =>
    rcases e with ⟨p0, q0⟩
    have hl' : DescSorted rest := List.Pairwise.of_cons hl
    rw [addLevelDesc]
    by_cases h1 : p = p0
    · rw [if_pos h1]
      by_cases h2 : p0 = pp
      · rw [levelQty, if_pos h2, levelQty, if_pos h2,
          if_pos (show pp = p by rw [← h2, h1])]
      · rw [levelQty, if_neg h2, levelQty, if_neg h2,
          if_neg (show ¬(pp = p) from fun hh => h2 (h1 ▸ hh.symm))]
        omega
    · rw [if_neg h1]
      by_cases h2 : p > p0
      · rw [if_pos h2]
        by_cases h3 : p = pp
        · rw [levelQty, if_pos h3]
          have hz : levelQty ((p0, q0) :: rest) pp = 0 := by
            apply levelQty_of_forall_ne
            intro e he hE
            rcases List.mem_cons.mp he with he | he
            · rw [he] at hE
              dsimp only at hE
              rw [hE, ← h3] at h2
              exact lt_irrefl p h2
            · have hlt : e.1 < p0 := (List.pairwise_cons.mp hl).1 e he
              rw [hE, ← h3] at hlt
              exact lt_irrefl p (hlt.trans h2)
          rw [hz, if_pos h3.symm]
          omega
        · rw [levelQty, if_neg h3,
            if_neg (show ¬(pp = p) from fun hh => h3 hh.symm)]
          omega
      · rw [if_neg h2, levelQty, levelQty]
        by_cases h3 : p0 = pp
        · rw [if_pos h3, if_pos h3,
            if_neg (show ¬(pp = p) from fun hh => h1 (hh ▸ h3).symm)]
          omega
        · rw [if_neg h3, if_neg h3, ih hl']

theorem levelQty_addLevelAsc (l : List (ℚ × Int)) (p : ℚ) (q : Int)
    (hl : AscSorted l) (pp : ℚ) :
    levelQty (addLevelAsc l p q) pp
      = levelQty l pp + (if pp = p then q else 0) := by
  induction l with
  | nil =>
    by_cases h : pp = p
    · subst h
      simp [addLevelAsc, levelQty]
    · have h2 : ¬(p = pp) := fun hh => h hh.symm
      simp [addLevelAsc, levelQty, h, h2]
  | cons e rest ih =>
    rcases e with ⟨p0, q0⟩
    have hl' : AscSorted rest := List.Pairwise.of_cons hl
    rw [addLevelAsc]
    by_cases h1 : p = p0
    · rw [if_pos h1]
      by_cases h2 : p0 = pp
      · rw [levelQty, if_pos h2, levelQty, if_pos h2,
          if_pos (show pp = p by rw [← h2, h1])]
      · rw [levelQty, if_neg h2, levelQty, if_neg h2,
          if_neg (show ¬(pp = p) from fun hh => h2 (h1 ▸ hh.symm))]
        omega
    · rw [if_neg h1]
      by_cases h2 : p < p0
      · rw [if_pos h2]
        by_cases h3 : p = pp
        · rw [levelQty, if_pos h3]
          have hz : levelQty ((p0, q0) :: rest) pp = 0 := by
            apply levelQty_of_forall_ne
            intro e he hE
            rcases List.mem_cons.mp he with he | he
            · rw [he] at hE
              dsimp only at hE
              rw [hE, ← h3] at h2
              exact lt_irrefl p h2
            · have hlt : p0 < e.1 := (List.pairwise_cons.mp hl).1 e he
              rw [hE, ← h3] at hlt
              exact lt_irrefl p (h2.trans hlt)
          rw [hz, if_pos h3.symm]
          omega
        · rw [levelQty, if_neg h3,
            if_neg (show ¬(pp = p) from fun hh => h3 hh.symm)]
          omega
      · rw [if_neg h2, levelQty, levelQty]
        by_cases h3 : p0 = pp
        · rw [if_pos h3, if_pos h3,
            if_neg (show ¬(pp = p) from fun hh => h1 (hh ▸ h3).symm)]
          omega
        · rw [if_neg h3, if_neg h3, ih hl']

/-- Claim C3 (amended): `OrderBook::add_order` registers the order in the
index under its id — overwriting any previous order with that id — and adds
its quantity to the level at its price on its side; it never reverses a
prior order's contribution, so after re-adding an existing id both
quantities remain counted in the aggregates (last-write wins only in the
index, not in the book sides). -/
theorem C3_add_order_keeps_old_contribution (b : OrderBook) (o : Order)
    (hb : DescSorted b.bids) (ha : AscSorted b.asks) :
    idxFind (OrderBook.add_order b o).order_index o.order_id = some o ∧
    (∀ p : ℚ, levelQty (OrderBook.add_order b o).bids p
      = levelQty b.bids p
        + (if o.side = Side.Buy ∧ p = o.price then o.quantity else 0)) ∧
    (∀ p : ℚ, levelQty (OrderBook.add_order b o).asks p
      = levelQty b.asks p
        + (if o.side = Side.Sell ∧ p = o.price then o.quantity else 0)) := by
  cases ho : o.side with
  | Buy =>
    have hbids : (OrderBook.add_order b o).bids
        = addLevelDesc b.bids o.price o.quantity := by
      simp [OrderBook.add_order, ho]
    have hasks : (OrderBook.add_order b o).asks = b.asks := by
      simp [OrderBook.add_order, ho]
    have hidx : (OrderBook.add_order b o).order_index
        = idxInsert b.order_index o.order_id o := by
      simp [OrderBook.add_order, ho]
    refine ⟨?_, ?_, ?_⟩
    · rw [hidx]; exact idxFind_idxInsert _ _ _
    · intro p
      rw [hbids, levelQty_addLevelDesc _ _ _ hb]
      simp [ho]
    · intro p
      rw [hasks]
      simp [ho]
  | Sell =>
    have hbids : (OrderBook.add_order b o).bids = b.bids := by
      simp [OrderBook.add_order, ho]
    have hasks : (OrderBook.add_order b o).asks
        = addLevelAsc b.asks o.price o.quantity := by
      simp [OrderBook.add_order, ho]
    have hidx : (OrderBook.add_order b o).order_index
        = idxInsert b.order_index o.order_id o := by
      simp [OrderBook.add_order, ho]
    refine ⟨?_, ?_, ?_⟩
    · rw [hidx]; exact idxFind_idxInsert _ _ _
    · intro p
      rw [hbids]
      simp [ho]
    · intro p
      rw [hasks, levelQty_addLevelAsc _ _ _ ha]
      simp [ho]

/-- Claim C3 counterexample: bookOne already registers id 1 (Buy 5 @ 100);
re-adding id 1 as Buy 7 @ 100 leaves the 100 bid level at 12 = 5 + 7, not
at the 7 the claim requires after reversing the prior contribution. -/
theorem C3_counterexample :
    levelQty (OrderBook.add_order bookOne ⟨1, 7, 100, Side.Buy⟩).bids 100 = 12 ∧
    ¬ levelQty (OrderBook.add_order bookOne ⟨1, 7, 100, Side.Buy⟩).bids 100 = 7 := by
  decide

/-- Witness for C3: re-adding id 1 to bookOne stores the new order in the
index and adds its quantity on top of the old level. -/
theorem C3_add_order_witness :
    idxFind (OrderBook.add_order bookOne ⟨1, 7, 100, Side.Buy⟩).order_index 1
      = some ⟨1, 7, 100, Side.Buy⟩ ∧
    levelQty (OrderBook.add_order bookOne ⟨1, 7, 100, Side.Buy⟩).bids 100
      = levelQty bookOne.bids 100 + 7 := by
  have h := C3_add_order_keeps_old_contribution bookOne ⟨1, 7, 100, Side.Buy⟩
    (by decide) (by decide)
  refine ⟨h.1, ?_⟩
  have h2 := h.2.1 100
  simpa using h2

theorem maximum_le_of_forall_lt (l : List ℚ) (p : ℚ)
    (h : ∀ x ∈ l, x < p) : l.maximum ≤ (p : WithBot ℚ) := by
  induction l with
  | nil => exact bot_le
  | cons a l ih =>
    rw [List.maximum_cons]
    exact max_le (by exact_mod_cast (h a (List.mem_cons_self _ _)).le)
      (ih fun x hx => h x (List.mem_cons_of_mem _ hx))

theorem maximum_cons_of_lt (p : ℚ) (l : List ℚ) (h : ∀ x ∈ l, x < p) :
    (p :: l).maximum = (p : WithBot ℚ) := by
  rw [List.maximum_cons]
  exact max_eq_left (maximum_le_of_forall_lt l p h)

theorem le_minimum_of_forall_lt (l : List ℚ) (p : ℚ)
    (h : ∀ x ∈ l, p < x) : (p : WithTop ℚ) ≤ l.minimum := by
  induction l with
  | nil => exact le_top
  | cons a l ih =>
    rw [List.minimum_cons]
    exact le_min (by exact_mod_cast (h a (List.mem_cons_self _ _)).le)
      (ih fun x hx => h x (List.mem_cons_of_mem _ hx))

theorem minimum_cons_of_lt (p : ℚ) (l : List ℚ) (h : ∀ x ∈ l, p < x) :
    (p :: l).minimum = (p : WithTop ℚ) := by
  rw [List.minimum_cons]
  exact min_eq_left (le_minimum_of_forall_lt l p h)

/-- Claim C8: on a book whose sides carry their `std::map` ordering
invariants, `get_best_bid` returns the highest bid price present (the
maximum of the bid keys) and `get_best_ask` the lowest ask price present,
and each returns the sentinel 0.0 when its side is empty. -/
theorem C8_best_quotes (b : OrderBook)
    (hb : DescSorted b.bids) (ha : AscSorted b.asks) :
    ((b.bids.map Prod.fst).maximum
        = (OrderBook.get_best_bid b : WithBot ℚ) ∨
      (b.bids = [] ∧ OrderBook.get_best_bid b = 0)) ∧
    ((b.asks.map Prod.fst).minimum
        = (OrderBook.get_best_ask b : WithTop ℚ) ∨
      (b.asks = [] ∧ OrderBook.get_best_ask b = 0)) := by
  constructor
  · cases hb0 : b.bids with
    | nil =>
      refine Or.inr ⟨rfl, ?_⟩
      rw [OrderBook.get_best_bid, hb0]
    | cons e rest =>
      rcases e with ⟨p, q⟩
      refine Or.inl ?_
      rw [OrderBook.get_best_bid, hb0]
      rw [List.map_cons]
      apply maximum_cons_of_lt
      intro x hx
      rcases List.mem_map.mp hx with ⟨e, he, rfl⟩
      rw [hb0] at hb
      exact (List.pairwise_cons.mp hb).1 e he
  · cases ha0 : b.asks with
    | nil =>
      refine Or.inr ⟨rfl, ?_⟩
      rw [OrderBook.get_best_ask, ha0]
    | cons e rest =>
      rcases e with ⟨p, q⟩
      refine Or.inl ?_
      rw [OrderBook.get_best_ask, ha0]
      rw [List.map_cons]
      apply minimum_cons_of_lt
      intro x hx
      rcases List.mem_map.mp hx with ⟨e, he, rfl⟩
      rw [ha0] at ha
      exact (List.pairwise_cons.mp ha).1 e he

/-- Witness for C8: the spec's example book (bids 99 and 98, asks 101 and
102) satisfies the ordering invariants; the best quotes are 99 and 101. -/
theorem C8_best_quotes_witness :
    (((bookEx.bids.map Prod.fst).maximum
        = (OrderBook.get_best_bid bookEx : WithBot ℚ) ∨
      (bookEx.bids = [] ∧ OrderBook.get_best_bid bookEx = 0)) ∧
    ((bookEx.asks.map Prod.fst).minimum
        = (OrderBook.get_best_ask bookEx : WithTop ℚ) ∨
      (bookEx.asks = [] ∧ OrderBook.get_best_ask bookEx = 0))) ∧
    OrderBook.get_best_bid bookEx = 99 ∧ OrderBook.get_best_ask bookEx = 101 :=
  ⟨C8_best_quotes bookEx (by decide) (by decide), by decide, by decide⟩

/-- Claim C9 counterexample: the repository's own fill report
(`System::start`) encodes "filled" as OrdStatus `39="2"` and ExecType
`150="2"`; the dispatcher's response to a NewOrderSingle instead carries
`39="0"` and `150="0"` (order acknowledged as new), so the response does
not carry status = filled. -/
theorem C9_counterexample :
    FIXObject.get_field (Handler.handle_message msgD) 39 = ['0'] ∧
    FIXObject.get_field (Handler.handle_message msgD) 150 = ['0'] ∧
    ¬ (FIXObject.get_field (Handler.handle_message msgD) 39 = ['2'] ∧
       FIXObject.get_field (Handler.handle_message msgD) 150 = ['2']) := by
  decide

/-- Claim C9 (amended): for every inbound Message with tag 35 = "D" the
dispatcher's response is an ExecutionReport (35 = "8") echoing ClOrdID (11),
symbol (55), side (54) and quantity (38), with ExecType 150 = "0" and
OrdStatus 39 = "0" — a new-order acknowledgement, not a fill. -/
theorem C9_new_order_ack (m : FIXFields)
    (h : FIXObject.get_field m 35 = ['D']) :
    FIXObject.get_field (Handler.handle_message m) 35 = ['8'] ∧
    FIXObject.get_field (Handler.handle_message m) 150 = ['0'] ∧
    FIXObject.get_field (Handler.handle_message m) 39 = ['0'] ∧
    FIXObject.get_field (Handler.handle_message m) 11
      = FIXObject.get_field m 11 ∧
    FIXObject.get_field (Handler.handle_message m) 55
      = FIXObject.get_field m 55 ∧
    FIXObject.get_field (Handler.handle_message m) 54
      = FIXObject.get_field m 54 ∧
    FIXObject.get_field (Handler.handle_message m) 38
      = FIXObject.get_field m 38 := by
  have hmsg : Handler.handle_message m
      = setFields [] [(35, ['8']), (150, ['0']), (39, ['0']),
          (11, FIXObject.get_field m 11), (55, FIXObject.get_field m 55),
          (54, FIXObject.get_field m 54), (38, FIXObject.get_field m 38)] := by
    rw [Handler.handle_message]
    rw [h, if_neg (by decide), if_neg (by decide), if_neg (by decide),
      if_pos rfl]
  rw [hmsg]
  exact ⟨rfl, rfl, rfl, rfl, rfl, rfl, rfl⟩

/-- Witness for C9 at the concrete NewOrderSingle `msgD`. -/
theorem C9_new_order_ack_witness :
    FIXObject.get_field (Handler.handle_message msgD) 35 = ['8'] ∧
    FIXObject.get_field (Handler.handle_message msgD) 150 = ['0'] ∧
    FIXObject.get_field (Handler.handle_message msgD) 39 = ['0'] ∧
    FIXObject.get_field (Handler.handle_message msgD) 11 = ['7'] ∧
    FIXObject.get_field (Handler.handle_message msgD) 55 = ['I', 'B', 'M'] ∧
    FIXObject.get_field (Handler.handle_message msgD) 54 = ['1'] ∧
    FIXObject.get_field (Handler.handle_message msgD) 38 = ['1', '0', '0'] :=
  C9_new_order_ack msgD (by decide)

end HFT
